import Mathlib

/-!
Verification of the pomidor Pomodoro timer (src/pomidor.py).

The source is a single-file interactive terminal timer.  We shallowly embed
its pure core: the duration codec (`parse_duration` / `format_duration`),
the status-line renderer (`format_time`), the countdown state machine of
`run_timer`, the FOCUS/BREAK session loop of `main`, the terminal-attribute
handling of `get_key`, and the preference loading of `load_defaults`.
Machine floats are modelled by exact rationals; wall-clock time is an
explicit parameter; terminal and file I/O become explicit state arguments.
-/

namespace Pomidor

/-! ## Decimal digits

Python renders numbers with `str`/f-strings and reads them with `int`/`float`.
We model decimal digit strings directly on `List Char`. -/

/-- The character for a single decimal digit `n < 10`. -/
def digitChar (n : ℕ) : Char := Char.ofNat (48 + n)

/-- Numeric value of a digit character. -/
def digitVal (c : Char) : ℕ := c.toNat - 48

/-- Fuel-driven decimal printer; `fuel > n` guarantees the fuel never
runs out.  (Structural recursion on the fuel keeps it kernel-reducible.) -/
def natDigitsAux : ℕ → ℕ → List Char → List Char
  | 0, _, acc => acc
  | fuel + 1, n, acc =>
    if n < 10 then digitChar n :: acc
    else natDigitsAux fuel (n / 10) (digitChar (n % 10) :: acc)

/-- Decimal digit string of a natural number, as printed by Python `str`. -/
def natDigits (n : ℕ) : List Char := natDigitsAux (n + 1) n []

/-- Decimal rendering of an integer, as printed by Python `str`. -/
def intDigits (i : ℤ) : List Char :=
  if i < 0 then '-' :: natDigits i.natAbs else natDigits i.toNat

/-- Value of a decimal digit string (most significant digit first),
continuing from an already accumulated value `a`. -/
def digitsValFrom (a : ℕ) (ds : List Char) : ℕ :=
  ds.foldl (fun acc c => 10 * acc + digitVal c) a

/-- Value of a decimal digit string, as read by Python `int`. -/
def digitsToNat (ds : List Char) : ℕ := digitsValFrom 0 ds

/-! ## Python string primitives

`parse_duration` begins with `value.strip().lower()`.  We model `str.strip`
and `str.lower` on `List Char` (Python strips Unicode whitespace and
lowercases Unicode letters; all inputs relevant here are ASCII). -/

/-- Python `str.strip`: drop leading and trailing whitespace. -/
def pyStrip (cs : List Char) : List Char :=
  ((cs.dropWhile Char.isWhitespace).reverse.dropWhile Char.isWhitespace).reverse

/-- Python `str.lower`. -/
def pyLower (cs : List Char) : List Char := cs.map Char.toLower

/-- Python `int()` truncation toward zero, applied to an exact rational. -/
def pyInt (x : ℚ) : ℤ := if x < 0 then Int.ceil x else Int.floor x

/-! ## The duration regex (src/pomidor.py line 50)

`parse_duration` matches `^(?:(\d+)h)?(?:(\d+)m)?(?:(\d+(?:\.\d+)?)s)?$`.
Each optional group is a greedy digit run followed by a fixed letter, so
the match is deterministic: a digit run can only be consumed by a group
whose following literal actually comes next, and regex backtracking can
never turn a failed anchored match into a successful one (after a digit
run the next character is a non-digit, so shrinking `\d+` or skipping a
group never helps).  We implement that deterministic reading directly. -/

/-- Match `(?:(\d+)u)?` at the head of `cs` for a unit letter `u`
(`'h'` or `'m'`): returns the captured digit group and the rest, or
`(none, cs)` when the optional group does not participate. -/
def matchGroupLetter (u : Char) (cs : List Char) : Option (List Char) × List Char :=
  let ds := cs.takeWhile Char.isDigit
  match cs.dropWhile Char.isDigit with
  | [] => (none, cs)
  | c :: rest =>
    if ds.isEmpty then (none, cs)
    else if c = u then (some ds, rest) else (none, cs)

/-- Match `(?:(\d+(?:\.\d+)?)s)?` at the head of `cs`: returns the integer
and fractional digit groups (fraction empty when absent) and the rest. -/
def matchGroupS (cs : List Char) : Option (List Char × List Char) × List Char :=
  let ds := cs.takeWhile Char.isDigit
  match cs.dropWhile Char.isDigit with
  | [] => (none, cs)
  | c :: rest =>
    if ds.isEmpty then (none, cs)
    else if c = 's' then (some (ds, []), rest)
    else if c = '.' then
      let fs := rest.takeWhile Char.isDigit
      match rest.dropWhile Char.isDigit with
      | [] => (none, cs)
      | c2 :: rest2 =>
        if fs.isEmpty = false ∧ c2 = 's' then (some (ds, fs), rest2) else (none, cs)
    else (none, cs)

/-- Python `float` of the seconds group: integer digits plus an optional
fraction. -/
def secVal : Option (List Char × List Char) → ℚ
  | none => 0
  | some (ds, []) => (digitsToNat ds : ℚ)
  | some (ds, fs) => (digitsToNat ds : ℚ) + (digitsToNat fs : ℚ) / 10 ^ fs.length

/-- The anchored match of the composite `[Nh][Nm][Ns]` regex, including
the `any(match.groups())` guard of line 51: the whole string must be
consumed and at least one group must have participated.  Returns the
hour and minute values and the seconds value. -/
def parseComposite (cs : List Char) : Option (ℕ × ℕ × ℚ) :=
  let h := matchGroupLetter 'h' cs
  let m := matchGroupLetter 'm' h.2
  let s := matchGroupS m.2
  if s.2.isEmpty ∧ (h.1.isSome ∨ m.1.isSome ∨ s.1.isSome) then
    some (digitsToNat (h.1.getD []), digitsToNat (m.1.getD []), secVal s.1)
  else none

/-! ## Python `float()` literals (the bare-number branch, line 58)

`float(value) * 60` accepts a decimal literal with optional sign,
fraction and exponent.  (Python `float` additionally accepts
`inf`/`infinity`/`nan` and underscore digit grouping; those forms never
arise from the duration strings this program handles and are not
modelled — on them the model falls back like on any other non-literal.) -/

/-- Parse the exponent suffix after the mantissa: empty, or
`e[+-]?digits` consuming the whole rest. -/
def parseExp (cs : List Char) : Option ℤ :=
  match cs with
  | [] => some 0
  | c :: t =>
    if c = 'e' ∨ c = 'E' then
      let sgn := match t with
        | '+' :: u => (false, u)
        | '-' :: u => (true, u)
        | _ => (false, t)
      let es := sgn.2.takeWhile Char.isDigit
      match sgn.2.dropWhile Char.isDigit, es with
      | [], _ :: _ => some (if sgn.1 then -(digitsToNat es : ℤ) else (digitsToNat es : ℤ))
      | _, _ => none
    else none

/-- Parse an unsigned mantissa `digits[.digits]`, `digits.` or `.digits`
(at least one digit overall); returns its value and the unconsumed
rest. -/
def pyFloatMant (cs : List Char) : Option (ℚ × List Char) :=
  match cs.dropWhile Char.isDigit with
  | '.' :: t =>
    if cs.takeWhile Char.isDigit = [] ∧ t.takeWhile Char.isDigit = [] then none
    else
      some ((digitsToNat (cs.takeWhile Char.isDigit) : ℚ)
          + (digitsToNat (t.takeWhile Char.isDigit) : ℚ) / 10 ^ (t.takeWhile Char.isDigit).length,
        t.dropWhile Char.isDigit)
  | rest =>
    if cs.takeWhile Char.isDigit = [] then none
    else some ((digitsToNat (cs.takeWhile Char.isDigit) : ℚ), rest)

/-- The optional leading sign of a float literal: negativity flag and the
remaining characters. -/
def pySign (cs : List Char) : Bool × List Char :=
  match cs with
  | [] => (false, [])
  | c :: t => if c = '-' then (true, t) else if c = '+' then (false, t) else (false, c :: t)

/-- Python `float(cs)` on a stripped, lowered string: sign, mantissa,
exponent; `none` models a `ValueError`. -/
def pyFloat (cs : List Char) : Option ℚ :=
  match pyFloatMant (pySign cs).2 with
  | none => none
  | some (m, rest) =>
    match parseExp rest with
    | none => none
    | some e =>
      some (if (pySign cs).1 then -(m * 10 ^ e) else m * 10 ^ e)

/-! ## `parse_duration` (src/pomidor.py lines 43-60) -/

/-- `parse_duration(value, default_secs)`: empty input returns the
fallback; otherwise strip and lowercase, try the composite regex
(summing `hours*3600 + mins*60 + secs`), then a bare decimal number of
minutes, then the fallback. -/
def parse_duration (value : String) (default_secs : ℚ) : ℚ :=
  if value = "" then default_secs
  else
    match parseComposite (pyLower (pyStrip value.data)) with
    | some (hours, mins, secs) => (hours : ℚ) * 3600 + (mins : ℚ) * 60 + secs
    | none =>
      match pyFloat (pyLower (pyStrip value.data)) with
      | some x => x * 60
      | none => default_secs

/-! ## `format_duration` (src/pomidor.py lines 63-79)

The fractional branch uses Python's `f"{secs:.2g}"`; `fmt2g` models that
general format (two significant digits, round-half-even, fixed or
scientific notation with trailing-zero stripping) on exact rationals. -/

/-- Round half to even, as Python's decimal formatting does. -/
def roundHE (x : ℚ) : ℤ :=
  if x - Int.floor x < 1 / 2 then Int.floor x
  else if 1 / 2 < x - Int.floor x then Int.floor x + 1
  else if Int.floor x % 2 = 0 then Int.floor x else Int.floor x + 1

/-- Smallest `k ≥ k0` with `1 ≤ x * 10 ^ k`, searched under a fuel bound
(for `x ≥ 1/x.den` a fuel of `x.den` always suffices). -/
def smallExpAux : ℕ → ℚ → ℕ → ℕ
  | 0, _, k => k
  | fuel + 1, x, k => if 1 ≤ x * 10 ^ k then k else smallExpAux fuel x (k + 1)

/-- Decimal exponent of a positive rational: the `e` with
`10^e ≤ x < 10^(e+1)`. -/
def decExp (x : ℚ) : ℤ :=
  if 1 ≤ x then ((natDigits (Int.floor x).toNat).length : ℤ) - 1
  else -(smallExpAux (x.den + 1) x 1 : ℤ)

/-- Exponent digits for scientific notation (Python prints at least two). -/
def expDigits (n : ℕ) : List Char :=
  if n < 10 then '0' :: natDigits n else natDigits n

/-- Render a two-significant-digit value `d1.d2 * 10 ^ e` the way
`format(x, ".2g")` does: fixed notation for `-4 ≤ e < 2` and scientific
notation otherwise, stripping a trailing zero digit. -/
def fmt2gRender (d1 d2 : ℕ) (e : ℤ) : List Char :=
  if e = 1 then [digitChar d1, digitChar d2]
  else if e = 0 then
    if d2 = 0 then [digitChar d1] else [digitChar d1, '.', digitChar d2]
  else if -4 ≤ e ∧ e < 0 then
    '0' :: '.' :: (List.replicate (-e - 1).toNat '0' ++
      (if d2 = 0 then [digitChar d1] else [digitChar d1, digitChar d2]))
  else
    (if d2 = 0 then [digitChar d1] else [digitChar d1, '.', digitChar d2]) ++
      'e' :: (if e < 0 then '-' else '+') :: expDigits e.natAbs

/-- `format(x, ".2g")` for positive `x`: round to two significant digits
(renormalizing when rounding carries to 100) and render. -/
def fmt2gPos (x : ℚ) : List Char :=
  let e := decExp x
  let n0 := roundHE (x / 10 ^ (e - 1))
  if n0 = 100 then fmt2gRender 1 0 (e + 1)
  else fmt2gRender (n0.toNat / 10) (n0.toNat % 10) e

/-- Python `f"{x:.2g}"` on an exact rational. -/
def fmt2g (x : ℚ) : List Char :=
  if x = 0 then ['0']
  else if x < 0 then '-' :: fmt2gPos (-x)
  else fmt2gPos x

/-- The hours block of `format_duration` (lines 66-69): when
`secs >= 3600` append `f"{h}h"` and reduce `secs` modulo 3600.
`h = int(secs // 3600)` is floor division followed by `int()` of an
integral value, i.e. the floor. -/
def fmtH (secs : ℚ) : List (List Char) × ℚ :=
  if 3600 ≤ secs then
    ([intDigits (Int.floor (secs / 3600)) ++ ['h']],
      secs - 3600 * (Int.floor (secs / 3600) : ℚ))
  else ([], secs)

/-- The minutes block of `format_duration` (lines 70-73): when the
remainder is `>= 60` append `f"{m}m"` and reduce it modulo 60. -/
def fmtM (st : List (List Char) × ℚ) : List (List Char) × ℚ :=
  if 60 ≤ st.2 then
    (st.1 ++ [intDigits (Int.floor (st.2 / 60)) ++ ['m']],
      st.2 - 60 * (Int.floor (st.2 / 60) : ℚ))
  else st

/-- The seconds block of `format_duration` (lines 74-78): append an `s`
part when the remainder is positive or no part was emitted yet; integral
seconds print as `f"{int(secs)}s"`, fractional ones as `f"{secs:.2g}s"`. -/
def fmtS (st : List (List Char) × ℚ) : List (List Char) :=
  if 0 < st.2 ∨ st.1 = [] then
    if (pyInt st.2 : ℚ) = st.2 then st.1 ++ [intDigits (pyInt st.2) ++ ['s']]
    else st.1 ++ [fmt2g st.2 ++ ['s']]
  else st.1

/-- `format_duration(secs)` (lines 63-79): the three blocks above and the
final `"".join(parts)`. -/
def format_duration (secs : ℚ) : String :=
  String.mk (fmtS (fmtM (fmtH secs))).flatten

/-! ## `format_time` (src/pomidor.py lines 118-129) -/

/-- Python `f"{n:02d}"` for the (nonnegative) minute and second fields. -/
def pad2 (n : ℕ) : List Char :=
  if n < 10 then '0' :: natDigits n else natDigits n

/-- Python `f"{x:.1f}"` for the seconds-only display: round to one
decimal, half to even. -/
def fmt1f (x : ℚ) : List Char :=
  if roundHE (10 * x) < 0 then
    '-' :: natDigits ((roundHE (10 * x)).natAbs / 10)
      ++ '.' :: natDigits ((roundHE (10 * x)).natAbs % 10)
  else
    natDigits ((roundHE (10 * x)).toNat / 10)
      ++ '.' :: natDigits ((roundHE (10 * x)).toNat % 10)

/-- The clamp `seconds = max(0, seconds)` opening `format_time`. -/
def ftClamp (seconds : ℚ) : ℚ := max 0 seconds

/-- The hour field `h = int(seconds // 3600)` of `format_time` (the
clamped value is nonnegative, so truncation is the floor). -/
def ftH (seconds : ℚ) : ℕ := (Int.floor (ftClamp seconds / 3600)).toNat

/-- The remainder after `seconds %= 3600` in `format_time`. -/
def ftS1 (seconds : ℚ) : ℚ := ftClamp seconds - 3600 * (ftH seconds : ℚ)

/-- The minute field `m = int(seconds // 60)` of `format_time`. -/
def ftM (seconds : ℚ) : ℕ := (Int.floor (ftS1 seconds / 60)).toNat

/-- The second field `s = seconds % 60` of `format_time`. -/
def ftS (seconds : ℚ) : ℚ := ftS1 seconds - 60 * (ftM seconds : ℚ)

/-- `format_time(seconds)`: clamp at zero, split into h/m/s, and render
`f"{h}h{m:02d}m{int(s):02d}s"`, `f"{m}m{int(s):02d}s"`, or `f"{s:.1f}s"`
depending on which leading units vanish. -/
def format_time (seconds : ℚ) : String :=
  if 0 < ftH seconds then
    String.mk (natDigits (ftH seconds) ++ 'h' :: pad2 (ftM seconds)
      ++ 'm' :: pad2 (pyInt (ftS seconds)).toNat ++ ['s'])
  else if 0 < ftM seconds then
    String.mk (natDigits (ftM seconds) ++ 'm' :: pad2 (pyInt (ftS seconds)).toNat ++ ['s'])
  else
    String.mk (fmt1f (ftS seconds) ++ ['s'])

/-! ## The countdown state machine (`run_timer`, src/pomidor.py lines 132-178)

`run_timer` is an interactive loop.  One iteration of its countdown
`while remaining > 0` loop reads one optional key, handles space/s/q, and
subtracts the wall-clock time elapsed since `last_tick` when running.  We
embed one iteration as `countTick`, taking the key returned by `get_key`
and the current wall-clock time `now`.  The completion loop at the bottom
of `run_timer` is embedded by the `TPhase.complete` case of `timerTick`. -/

/-- Result of one `run_timer` call: Python returns `"skip"`, `None`
(quit/abort) or `True` (finished after completion acknowledgement). -/
inductive Outcome
  | skipped
  | aborted
  | finished
  deriving DecidableEq, Repr

/-- The mutable locals of the countdown loop: `remaining`, `running`,
`last_tick`. -/
structure CState where
  remaining : ℚ
  running : Bool
  lastTick : ℚ
  deriving DecidableEq, Repr

/-- The `if running:` block at lines 158-162: subtract the elapsed
wall-clock time and update `last_tick`; a paused timer is untouched
(its `last_tick` goes stale, exactly as in the source). -/
def applyElapsed (s : CState) (now : ℚ) : CState :=
  if s.running then ⟨s.remaining - (now - s.lastTick), s.running, now⟩ else s

/-- One iteration of the countdown loop (lines 145-165), at wall-clock time
`now`: space toggles `running` and resets `last_tick`, `s` returns
`"skip"`, `q` returns `None`, then elapsed time is applied. -/
def countTick (s : CState) (key : Option Char) (now : ℚ) : Outcome ⊕ CState :=
  if key = some ' ' then
    Sum.inr (applyElapsed ⟨s.remaining, !s.running, now⟩ now)
  else if key = some 's' then Sum.inl Outcome.skipped
  else if key = some 'q' then Sum.inl Outcome.aborted
  else Sum.inr (applyElapsed s now)

/-- Control position inside `run_timer`: still counting down, or in the
completion loop at lines 168-178 (where the Python local `remaining` is
no longer modified; we keep recording it). -/
inductive TPhase
  | counting (s : CState)
  | complete (remaining : ℚ)
  deriving DecidableEq, Repr

/-- One observable step of `run_timer`: a countdown iteration followed by
the `while remaining > 0` re-check, or one poll of the completion loop
(lines 169-178: any key ends the interval, `q` aborting, others
finishing; the rate-limited `play_sound` call is output-only I/O). -/
def timerTick (p : TPhase) (key : Option Char) (now : ℚ) : Outcome ⊕ TPhase :=
  match p with
  | TPhase.counting s =>
    match countTick s key now with
    | Sum.inl o => Sum.inl o
    | Sum.inr s' =>
      Sum.inr (if s'.remaining ≤ 0 then TPhase.complete s'.remaining else TPhase.counting s')
  | TPhase.complete r =>
    match key with
    | none => Sum.inr (TPhase.complete r)
    | some c => if c = 'q' then Sum.inl Outcome.aborted else Sum.inl Outcome.finished

/-- Entry into `run_timer` (lines 132-145): `remaining = duration_secs`,
`running = autostart`, `last_tick = time.time()`; the countdown loop is
entered only when `remaining > 0`. -/
def initTimer (duration_secs : ℚ) (autostart : Bool) (t0 : ℚ) : TPhase :=
  if 0 < duration_secs then TPhase.counting ⟨duration_secs, autostart, t0⟩
  else TPhase.complete duration_secs

/-! ## The session loop (`main`, src/pomidor.py lines 194-201)

`main` loops: run a FOCUS interval with the current `autostart` flag, stop
if it aborted, run a BREAK interval with `autostart=True`, stop if it
aborted, set `autostart = True`, repeat.  We embed the loop as a function
of the script of successive `run_timer` outcomes; it returns the
`(label, autostart)` arguments of the `run_timer` calls that were made
(one call per scripted outcome). -/

def sessionRun : List Outcome → Bool → List (String × Bool)
  | [], _ => []
  | [_], autostart => [("FOCUS", autostart)]
  | r :: r2 :: rest2, autostart =>
    ("FOCUS", autostart) ::
      if r = Outcome.aborted then []
      else
        ("BREAK", true) ::
          if r2 = Outcome.aborted then [] else sessionRun rest2 true

/-! ## Terminal key polling (`get_key`, src/pomidor.py lines 89-100)

`get_key` saves the terminal attributes with `tcgetattr`, switches to raw
mode, waits up to 0.1 s for one byte, and restores the saved attributes in
a `finally` block.  Terminal attributes are an abstract type `α`; raw-mode
switching is an arbitrary transformation `raw`; the body's three exit
paths (a byte arrived, the select timed out, an exception/interrupt was
raised) are an explicit argument. -/

/-- What happens inside the `try` block of `get_key`. -/
inductive PollOutcome
  | byte (c : Char)
  | timeout
  | interrupted
  deriving DecidableEq

/-- How `get_key` hands control back to its caller. -/
inductive GetKeyResult
  | key (c : Char)
  | noKey
  | raised
  deriving DecidableEq

/-- Terminal state: the current attribute word. -/
structure TermState (α : Type) where
  attrs : α

/-- `get_key`: save `old_settings`, set raw mode, run the body, and on
every exit path restore `old_settings` via the `finally` block. -/
def get_key {α : Type} (raw : α → α) (t : TermState α) (poll : PollOutcome) :
    GetKeyResult × TermState α :=
  let old_settings := t.attrs
  let t1 : TermState α := ⟨raw t.attrs⟩
  match poll with
  | PollOutcome.byte c => (GetKeyResult.key c, { t1 with attrs := old_settings })
  | PollOutcome.timeout => (GetKeyResult.noKey, { t1 with attrs := old_settings })
  | PollOutcome.interrupted => (GetKeyResult.raised, { t1 with attrs := old_settings })

/-! ## Preference loading (`load_defaults`, src/pomidor.py lines 25-33)

`load_defaults` returns the parsed JSON cache file when it exists and
decodes, and the built-in defaults when it is missing or raises
`JSONDecodeError`/`IOError`.  The decoded value is returned unvalidated;
`main` then indexes it with `defaults["focus"]` / `defaults["break"]`. -/

/-- JSON values, as produced by `json.load`. -/
inductive Json
  | null
  | bool (b : Bool)
  | num (q : ℚ)
  | str (s : String)
  | arr (elems : List Json)
  | obj (fields : List (String × Json))

/-- What opening and decoding the cache file produced: a decoded JSON
value, a `json.JSONDecodeError`, or an `IOError` (unreadable file). -/
inductive ReadOutcome
  | jsonValue (j : Json)
  | decodeError
  | ioError

/-- The cache file on disk: absent, or present with a read outcome. -/
inductive CacheFile
  | absent
  | present (r : ReadOutcome)

/-- The built-in defaults `{"focus": 1500, "break": 300}`. -/
def defaultPrefs : Json := Json.obj [("focus", Json.num 1500), ("break", Json.num 300)]

/-- `load_defaults()`: the `CACHE_FILE.exists()` test, the
`try: json.load` and the `except (JSONDecodeError, IOError): pass`
fallthrough to the defaults. -/
def load_defaults : CacheFile → Json
  | CacheFile.absent => defaultPrefs
  | CacheFile.present ReadOutcome.decodeError => defaultPrefs
  | CacheFile.present ReadOutcome.ioError => defaultPrefs
  | CacheFile.present (ReadOutcome.jsonValue j) => j

/-- Python `d[k]` on a decoded JSON value, as `main` does with
`defaults["focus"]`: `none` models the `KeyError`/`TypeError` raised when
the value is not an object with that key. -/
def jsonGet (j : Json) (k : String) : Option Json :=
  match j with
  | Json.obj fields => fields.lookup k
  | _ => none

/-! ## Lemmas about decimal digit strings -/

theorem digitChar_lt (d : ℕ) (hd : d < 10) :
    (digitChar d).isDigit = true ∧ (digitChar d).isWhitespace = false ∧
      Char.toLower (digitChar d) = digitChar d ∧ digitVal (digitChar d) = d ∧
      digitChar d ≠ 'h' ∧ digitChar d ≠ 'm' ∧ digitChar d ≠ 's' ∧ digitChar d ≠ '-' ∧
      digitChar d ≠ '.' ∧ digitChar d ≠ ' ' ∧ digitChar d ≠ 'q' := by
  interval_cases d <;> exact ⟨rfl, rfl, rfl, rfl, by decide, by decide, by decide, by decide,
    by decide, by decide, by decide⟩

theorem natDigitsAux_eq (n : ℕ) : ∀ (fuel : ℕ) (acc : List Char), n < fuel →
    natDigitsAux fuel n acc = natDigits n ++ acc := by
  induction n using Nat.strong_induction_on with
  | _ n ih =>
    intro fuel acc h
    match fuel with
    | fuel + 1 =>
      by_cases h10 : n < 10
      · simp [natDigitsAux, natDigits, h10]
      · have hdiv : n / 10 < n := Nat.div_lt_self (by omega) (by omega)
        rw [show natDigitsAux (fuel + 1) n acc
            = natDigitsAux fuel (n / 10) (digitChar (n % 10) :: acc) by
          simp [natDigitsAux, h10]]
        rw [show natDigits n = natDigitsAux n (n / 10) [digitChar (n % 10)] by
          simp [natDigits, natDigitsAux, h10]]
        rw [ih (n / 10) hdiv fuel (digitChar (n % 10) :: acc) (by omega),
          ih (n / 10) hdiv n [digitChar (n % 10)] (by omega)]
        simp

theorem natDigits_of_lt (n : ℕ) (h : n < 10) : natDigits n = [digitChar n] := by
  simp [natDigits, natDigitsAux, h]

theorem natDigits_of_ge (n : ℕ) (h : ¬ n < 10) :
    natDigits n = natDigits (n / 10) ++ [digitChar (n % 10)] := by
  rw [show natDigits n = natDigitsAux n (n / 10) [digitChar (n % 10)] by
    simp [natDigits, natDigitsAux, h]]
  exact natDigitsAux_eq (n / 10) n _ (Nat.div_lt_self (by omega) (by omega))

theorem natDigits_mem (n : ℕ) : ∀ c ∈ natDigits n, ∃ d, d < 10 ∧ c = digitChar d := by
  induction n using Nat.strong_induction_on with
  | _ n ih =>
    intro c hc
    by_cases h10 : n < 10
    · rw [natDigits_of_lt n h10] at hc
      simp at hc
      exact ⟨n, h10, hc⟩
    · rw [natDigits_of_ge n h10] at hc
      rcases List.mem_append.mp hc with h | h
      · exact ih (n / 10) (Nat.div_lt_self (by omega) (by omega)) c h
      · simp at h
        exact ⟨n % 10, Nat.mod_lt n (by omega), h⟩

theorem natDigits_ne_nil (n : ℕ) : natDigits n ≠ [] := by
  by_cases h10 : n < 10
  · rw [natDigits_of_lt n h10]; simp
  · rw [natDigits_of_ge n h10]; simp

theorem natDigits_isDigit (n : ℕ) : ∀ c ∈ natDigits n, c.isDigit = true := by
  intro c hc
  obtain ⟨d, hd, rfl⟩ := natDigits_mem n c hc
  exact (digitChar_lt d hd).1

theorem digitsValFrom_natDigits (n : ℕ) :
    ∀ a, digitsValFrom a (natDigits n) = a * 10 ^ (natDigits n).length + n := by
  induction n using Nat.strong_induction_on with
  | _ n ih =>
    intro a
    by_cases h10 : n < 10
    · rw [natDigits_of_lt n h10]
      simp [digitsValFrom, (digitChar_lt n h10).2.2.2.1]
      omega
    · rw [natDigits_of_ge n h10]
      have hdiv : n / 10 < n := Nat.div_lt_self (by omega) (by omega)
      rw [digitsValFrom, List.foldl_append]
      have h1 : (natDigits (n / 10)).foldl (fun acc c => 10 * acc + digitVal c) a
          = a * 10 ^ (natDigits (n / 10)).length + n / 10 := ih (n / 10) hdiv a
      rw [h1]
      simp [(digitChar_lt (n % 10) (Nat.mod_lt n (by omega))).2.2.2.1, pow_succ]
      have := Nat.div_add_mod n 10
      ring_nf
      omega

theorem digitsToNat_natDigits (n : ℕ) : digitsToNat (natDigits n) = n := by
  have := digitsValFrom_natDigits n 0
  simpa [digitsToNat] using this

/-! ## C1: the countdown tick (`run_timer`) -/

/-- C1.  In the `run_timer` countdown loop, a tick with no key event
subtracts exactly the wall-clock time elapsed since the previous tick
from `remaining` when running, and leaves the state untouched when
paused; in particular from `remaining = 10, running = true` a simulated
3-second tick yields `remaining = 7` with the timer still counting
(`Running`). -/
theorem countdown_tick_delta :
    (∀ (r t0 now : ℚ), countTick ⟨r, true, t0⟩ none now
        = Sum.inr ⟨r - (now - t0), true, now⟩)
    ∧ (∀ (r t0 now : ℚ), countTick ⟨r, false, t0⟩ none now
        = Sum.inr ⟨r, false, t0⟩)
    ∧ timerTick (TPhase.counting ⟨10, true, 0⟩) none 3
        = Sum.inr (TPhase.counting ⟨7, true, 3⟩) := by
  refine ⟨fun r t0 now => by simp [countTick, applyElapsed], fun r t0 now => by
    simp [countTick, applyElapsed], ?_⟩
  have h1 : countTick ⟨10, true, 0⟩ none 3 = Sum.inr ⟨7, true, 3⟩ := by
    simp [countTick, applyElapsed]
    norm_num
  simp [timerTick, h1]

/-! ## C2: completion behaviour (`run_timer`) -/

/-- C2.  When a countdown iteration drives `remaining` to `≤ 0` the timer
moves to the `Complete` phase; a completion-phase tick without a key
leaves `remaining` untouched (no further decrement); in the completion
phase `q` returns the `Aborted` outcome and any other key returns
`Finished`. -/
theorem complete_phase_behaviour :
    (∀ (s : CState) (key : Option Char) (now : ℚ) (s' : CState),
      countTick s key now = Sum.inr s' → s'.remaining ≤ 0 →
        timerTick (TPhase.counting s) key now = Sum.inr (TPhase.complete s'.remaining))
    ∧ (∀ (r now : ℚ), timerTick (TPhase.complete r) none now = Sum.inr (TPhase.complete r))
    ∧ (∀ (r now : ℚ), timerTick (TPhase.complete r) (some 'q') now = Sum.inl Outcome.aborted)
    ∧ (∀ (r now : ℚ) (c : Char), c ≠ 'q' →
        timerTick (TPhase.complete r) (some c) now = Sum.inl Outcome.finished) := by
  refine ⟨fun s key now s' hstep hle => ?_, fun r now => rfl, fun r now => by
    simp [timerTick], fun r now c hc => by simp [timerTick, hc]⟩
  simp [timerTick, hstep, hle]

/-- Witness for C2 at a concrete instant: from `remaining = 1` a running
tick of one elapsed second completes the interval, and a space key during
the completion phase finishes the interval. -/
theorem complete_phase_behaviour_witness :
    timerTick (TPhase.counting ⟨1, true, 0⟩) none 1 = Sum.inr (TPhase.complete 0)
    ∧ timerTick (TPhase.complete 5) (some ' ') 9 = Sum.inl Outcome.finished := by
  refine ⟨?_, complete_phase_behaviour.2.2.2 5 9 ' ' (by decide)⟩
  have h : countTick ⟨1, true, 0⟩ none 1 = Sum.inr ⟨0, true, 1⟩ := by
    simp [countTick, applyElapsed]
  exact complete_phase_behaviour.1 ⟨1, true, 0⟩ none 1 ⟨0, true, 1⟩ h (le_refl 0)

/-! ## C7: terminal attribute restoration (`get_key`) -/

/-- C7.  `get_key` restores the saved terminal attributes on every exit
path — byte received, timeout, and exception — so a sequence of calls in
a tight loop leaves the attributes exactly as they started, and maps the
three body outcomes to the corresponding results. -/
theorem get_key_restores_attrs :
    ∀ (α : Type) (raw : α → α) (t : TermState α),
      (∀ poll, (get_key raw t poll).2.attrs = t.attrs)
      ∧ (∀ c, (get_key raw t (PollOutcome.byte c)).1 = GetKeyResult.key c)
      ∧ (get_key raw t PollOutcome.timeout).1 = GetKeyResult.noKey
      ∧ (get_key raw t PollOutcome.interrupted).1 = GetKeyResult.raised
      ∧ (∀ polls : List PollOutcome,
          (polls.foldl (fun st p => (get_key raw st p).2) t).attrs = t.attrs) := by
  intro α raw t
  refine ⟨fun poll => by cases poll <;> rfl, fun c => rfl, rfl, rfl, fun polls => ?_⟩
  induction polls generalizing t with
  | nil => rfl
  | cons p rest ih =>
    rw [List.foldl_cons]
    rw [ih ((get_key raw t p).2)]
    cases p <;> rfl

/-! ## Lemmas about the session loop -/

theorem sessionRun_single (r : Outcome) (a : Bool) :
    sessionRun [r] a = [("FOCUS", a)] := rfl

theorem sessionRun_cons_abort (r2 : Outcome) (rest2 : List Outcome) (a : Bool) :
    sessionRun (Outcome.aborted :: r2 :: rest2) a = [("FOCUS", a)] := by
  simp [sessionRun]

theorem sessionRun_cons_cons (r1 r2 : Outcome) (rest2 : List Outcome) (a : Bool)
    (h1 : r1 ≠ Outcome.aborted) :
    sessionRun (r1 :: r2 :: rest2) a
      = ("FOCUS", a) :: ("BREAK", true)
        :: (if r2 = Outcome.aborted then [] else sessionRun rest2 true) := by
  simp [sessionRun, h1]

/-- Every interval a session run starts is the focus interval with the
incoming autostart flag, or a focus or break interval with autostart on. -/
theorem sessionRun_mem_shape : ∀ (results : List Outcome) (a : Bool) (x : String × Bool),
    x ∈ sessionRun results a →
      x = ("FOCUS", a) ∨ x = ("FOCUS", true) ∨ x = ("BREAK", true)
  | [], _, _, h => absurd h (by simp [sessionRun])
  | [r], a, x, h => by
    rw [sessionRun_single] at h
    simp at h
    exact Or.inl h
  | r1 :: r2 :: rest2, a, x, h => by
    by_cases h1 : r1 = Outcome.aborted
    · subst h1
      rw [sessionRun_cons_abort] at h
      simp at h
      exact Or.inl h
    · rw [sessionRun_cons_cons r1 r2 rest2 a h1] at h
      rcases List.mem_cons.mp h with h | h
      · exact Or.inl h
      rcases List.mem_cons.mp h with h | h
      · exact Or.inr (Or.inr h)
      by_cases h2 : r2 = Outcome.aborted
      · rw [if_pos h2] at h
        simp at h
      · rw [if_neg h2] at h
        rcases sessionRun_mem_shape rest2 true x h with h | h | h
        · exact Or.inr (Or.inl h)
        · exact Or.inr (Or.inl h)
        · exact Or.inr (Or.inr h)

/-- The labels of a session run alternate FOCUS, BREAK, FOCUS, ... -/
theorem sessionRun_alternates : ∀ (results : List Outcome) (a : Bool) (i : ℕ)
    (x : String × Bool), (sessionRun results a)[i]? = some x →
      x.1 = if i % 2 = 0 then "FOCUS" else "BREAK"
  | [], _, i, x, h => by simp [sessionRun] at h
  | [r], a, i, x, h => by
    rw [sessionRun_single] at h
    match i with
    | 0 =>
      simp at h
      subst h
      rfl
    | i + 1 => simp at h
  | r1 :: r2 :: rest2, a, i, x, h => by
    by_cases h1 : r1 = Outcome.aborted
    · subst h1
      rw [sessionRun_cons_abort] at h
      match i with
      | 0 =>
        simp at h
        subst h
        rfl
      | i + 1 => simp at h
    · rw [sessionRun_cons_cons r1 r2 rest2 a h1] at h
      match i with
      | 0 =>
        simp at h
        subst h
        rfl
      | 1 =>
        simp at h
        subst h
        rfl
      | i + 2 =>
        rw [List.getElem?_cons_succ, List.getElem?_cons_succ] at h
        by_cases h2 : r2 = Outcome.aborted
        · rw [if_pos h2] at h
          simp at h
        · rw [if_neg h2] at h
          have := sessionRun_alternates rest2 true i x h
          rw [show (i + 2) % 2 = i % 2 by omega]
          exact this

/-- As soon as a scripted outcome is `aborted`, the session run starts no
further interval. -/
theorem sessionRun_stops : ∀ (results : List Outcome) (a : Bool) (i : ℕ),
    results[i]? = some Outcome.aborted → (sessionRun results a).length ≤ i + 1
  | [], _, i, h => by simp at h
  | [r], a, i, h => by
    rw [sessionRun_single]
    simp only [List.length_singleton]
    omega
  | r1 :: r2 :: rest2, a, i, h => by
    by_cases h1 : r1 = Outcome.aborted
    · subst h1
      rw [sessionRun_cons_abort]
      simp only [List.length_singleton]
      omega
    · rw [sessionRun_cons_cons r1 r2 rest2 a h1]
      match i with
      | 0 =>
        simp at h
        exact absurd h h1
      | 1 =>
        simp at h
        simp [h]
      | i + 2 =>
        rw [List.getElem?_cons_succ, List.getElem?_cons_succ] at h
        by_cases h2 : r2 = Outcome.aborted
        · rw [if_pos h2]
          simp only [List.length_cons, List.length_nil]
          omega
        · rw [if_neg h2]
          have := sessionRun_stops rest2 true i h
          simp only [List.length_cons]
          omega

/-! ## C3: the session loop (`main`) -/

/-- C3.  The session loop starts its first FOCUS interval paused
(`autostart = false`); the intervals it starts alternate FOCUS, BREAK,
FOCUS, ...; once the first FOCUS→BREAK pair has run without aborting,
every later interval is started with `autostart = true`; and as soon as
any `run_timer` call reports `Aborted`, no further interval is started. -/
theorem session_loop_behaviour :
    (∀ (r : Outcome) (rest : List Outcome),
      (sessionRun (r :: rest) false).head? = some ("FOCUS", false))
    ∧ (∀ (results : List Outcome) (a : Bool) (i : ℕ) (x : String × Bool),
        (sessionRun results a)[i]? = some x →
          x.1 = if i % 2 = 0 then "FOCUS" else "BREAK")
    ∧ (∀ (r1 r2 : Outcome) (rest : List Outcome),
        r1 ≠ Outcome.aborted → r2 ≠ Outcome.aborted →
        ∀ x ∈ (sessionRun (r1 :: r2 :: rest) false).drop 2, x.2 = true)
    ∧ (∀ (results : List Outcome) (a : Bool) (i : ℕ),
        results[i]? = some Outcome.aborted → (sessionRun results a).length ≤ i + 1) := by
  refine ⟨fun r rest => ?_, sessionRun_alternates, ?_, sessionRun_stops⟩
  · match rest with
    | [] => rfl
    | r2 :: rest2 =>
      by_cases h1 : r = Outcome.aborted
      · subst h1
        rw [sessionRun_cons_abort]
        rfl
      · rw [sessionRun_cons_cons r r2 rest2 false h1]
        rfl
  · intro r1 r2 rest h1 h2 x hx
    rw [sessionRun_cons_cons r1 r2 rest false h1, if_neg h2] at hx
    simp at hx
    rcases sessionRun_mem_shape rest true x hx with h | h | h <;> simp [h]

/-- Witness for C3 on the script finished, finished, aborted: the third
`run_timer` call aborts, so at most three intervals are started, the
second started interval is the BREAK interval, and the intervals after
the first completed pair autostart. -/
theorem session_loop_behaviour_witness :
    (sessionRun [Outcome.finished, Outcome.finished, Outcome.aborted] false).length ≤ 3
    ∧ (("BREAK", true) : String × Bool).1 = (if 1 % 2 = 0 then "FOCUS" else "BREAK")
    ∧ (("FOCUS", true) : String × Bool).2 = true := by
  refine ⟨session_loop_behaviour.2.2.2 [Outcome.finished, Outcome.finished, Outcome.aborted]
    false 2 (by decide), ?_, ?_⟩
  · exact session_loop_behaviour.2.1 [Outcome.finished, Outcome.finished, Outcome.aborted]
      false 1 ("BREAK", true) (by decide)
  · exact session_loop_behaviour.2.2.1 Outcome.finished Outcome.finished [Outcome.aborted]
      (by decide) (by decide) ("FOCUS", true) (by decide)

/-! ## C10: break intervals always autostart (`main` and `run_timer`) -/

/-- C10.  Every BREAK interval the session loop starts — the first one
included — carries `autostart = true`; an interval started paused can
only be a FOCUS interval; and `run_timer` with `autostart = true` begins
in the running state. -/
theorem break_always_autostarts :
    (∀ (results : List Outcome) (a : Bool) (x : String × Bool),
      x ∈ sessionRun results a → x.1 = "BREAK" → x.2 = true)
    ∧ (∀ (results : List Outcome) (a : Bool) (x : String × Bool),
      x ∈ sessionRun results a → x.2 = false → x.1 = "FOCUS")
    ∧ (∀ (d t0 : ℚ), 0 < d → initTimer d true t0 = TPhase.counting ⟨d, true, t0⟩) := by
  refine ⟨fun results a x hx hb => ?_, fun results a x hx hf => ?_,
    fun d t0 hd => by simp [initTimer, hd]⟩
  · rcases sessionRun_mem_shape results a x hx with h | h | h
    · subst h; simp at hb
    · subst h; simp at hb
    · subst h; rfl
  · rcases sessionRun_mem_shape results a x hx with h | h | h
    · subst h; rfl
    · subst h; rfl
    · subst h; simp at hf

/-- Witness for C10: in a two-interval run the BREAK interval indeed has
`autostart = true`, and `run_timer` on a one-second interval with
autostart begins counting in the running state. -/
theorem break_always_autostarts_witness :
    (("BREAK", true) : String × Bool).2 = true
    ∧ initTimer 1 true 0 = TPhase.counting ⟨1, true, 0⟩ := by
  refine ⟨break_always_autostarts.1 [Outcome.finished, Outcome.finished] false
    ("BREAK", true) (by decide) (by decide), ?_⟩
  exact break_always_autostarts.2.2 1 0 zero_lt_one

/-! ## C8: preference loading (`load_defaults`) -/

/-- C8 counterexample.  A cache file whose content is valid JSON of the
wrong shape — here the JSON array `[]` — is returned as-is by
`load_defaults` instead of the built-in defaults, and `main`'s subsequent
`defaults["focus"]` lookup then fails (a `KeyError`/`TypeError`, modelled
by `none`), so startup does not proceed with usable values. -/
theorem load_defaults_not_always_defaults :
    load_defaults (CacheFile.present (ReadOutcome.jsonValue (Json.arr []))) ≠ defaultPrefs
    ∧ jsonGet (load_defaults (CacheFile.present (ReadOutcome.jsonValue (Json.arr []))))
        "focus" = none := by
  refine ⟨fun h => ?_, rfl⟩
  rw [show load_defaults (CacheFile.present (ReadOutcome.jsonValue (Json.arr [])))
      = Json.arr [] from rfl, defaultPrefs] at h
  exact Json.noConfusion h

/-- C8 (amended).  A missing cache file, an unreadable one (`IOError`),
and content that is not valid JSON (`JSONDecodeError`) all yield the
built-in defaults of 1500 s focus and 300 s break without surfacing the
error; content that parses as JSON, however, is returned unvalidated. -/
theorem load_defaults_recovers :
    load_defaults CacheFile.absent = defaultPrefs
    ∧ load_defaults (CacheFile.present ReadOutcome.ioError) = defaultPrefs
    ∧ load_defaults (CacheFile.present ReadOutcome.decodeError) = defaultPrefs
    ∧ jsonGet defaultPrefs "focus" = some (Json.num 1500)
    ∧ jsonGet defaultPrefs "break" = some (Json.num 300)
    ∧ (∀ j : Json, load_defaults (CacheFile.present (ReadOutcome.jsonValue j)) = j) :=
  ⟨rfl, rfl, rfl, rfl, rfl, fun _ => rfl⟩

/-! ## Lemmas about digit spans and the Python string primitives -/

theorem takeWhile_append_cons (p : Char → Bool) (ds : List Char) (c : Char) (rest : List Char)
    (hds : ∀ x ∈ ds, p x = true) (hc : p c = false) :
    (ds ++ c :: rest).takeWhile p = ds ∧ (ds ++ c :: rest).dropWhile p = c :: rest := by
  induction ds with
  | nil => simp [List.takeWhile_cons, List.dropWhile_cons, hc]
  | cons d ds ih =>
    have hd : p d = true := hds d (List.mem_cons_self _ _)
    have h' := ih (fun x hx => hds x (List.mem_cons_of_mem _ hx))
    simp [List.takeWhile_cons, List.dropWhile_cons, hd, h'.1, h'.2]

theorem takeWhile_all (p : Char → Bool) (ds : List Char) (hds : ∀ x ∈ ds, p x = true) :
    ds.takeWhile p = ds ∧ ds.dropWhile p = [] := by
  induction ds with
  | nil => simp
  | cons d ds ih =>
    have hd : p d = true := hds d (List.mem_cons_self _ _)
    have h' := ih (fun x hx => hds x (List.mem_cons_of_mem _ hx))
    simp [List.takeWhile_cons, List.dropWhile_cons, hd, h'.1, h'.2]

theorem pyStrip_eq_self (cs : List Char) (h : ∀ c ∈ cs, c.isWhitespace = false) :
    pyStrip cs = cs := by
  have h1 : cs.dropWhile Char.isWhitespace = cs := by
    cases cs with
    | nil => rfl
    | cons c t => simp [List.dropWhile_cons, h c (by simp)]
  rw [pyStrip, h1]
  have h2 : cs.reverse.dropWhile Char.isWhitespace = cs.reverse := by
    cases hrev : cs.reverse with
    | nil => rfl
    | cons c t =>
      have hm : c ∈ cs := by
        rw [← List.mem_reverse, hrev]
        simp
      simp [List.dropWhile_cons, h c hm]
  rw [h2, List.reverse_reverse]

theorem pyLower_eq_self (cs : List Char) (h : ∀ c ∈ cs, Char.toLower c = c) :
    pyLower cs = cs := by
  rw [pyLower]
  exact (List.map_congr_left h).trans (List.map_id cs)

theorem mem_pyStrip (cs : List Char) (c : Char) (h : c ∈ pyStrip cs) : c ∈ cs := by
  rw [pyStrip, List.mem_reverse] at h
  have h1 := (List.dropWhile_sublist Char.isWhitespace).subset h
  rw [List.mem_reverse] at h1
  exact (List.dropWhile_sublist Char.isWhitespace).subset h1

theorem toLower_eq_dash (c : Char) (h : Char.toLower c = '-') : c = '-' := by
  rw [Char.toLower] at h
  split at h
  · rename_i hcond
    obtain ⟨h65, h90⟩ := hcond
    set n := c.toNat with hn
    interval_cases n <;> exact absurd h (by decide)
  · exact h

theorem mem_pyLower_dash (cs : List Char) (h : '-' ∈ pyLower cs) : '-' ∈ cs := by
  rw [pyLower, List.mem_map] at h
  obtain ⟨c, hc, hl⟩ := h
  rwa [toLower_eq_dash c hl] at hc

/-! ## Nonnegativity lemmas for the parsers -/

theorem secVal_nonneg (o : Option (List Char × List Char)) : 0 ≤ secVal o := by
  match o with
  | none => simp [secVal]
  | some (ds, fs) =>
    match fs with
    | [] => simp [secVal]
    | f :: fs =>
      rw [show secVal (some (ds, f :: fs)) = (digitsToNat ds : ℚ)
          + (digitsToNat (f :: fs) : ℚ) / 10 ^ (f :: fs).length from rfl]
      positivity

theorem pyFloatMant_nonneg (cs : List Char) (x : ℚ) (rest : List Char)
    (h : pyFloatMant cs = some (x, rest)) : 0 ≤ x := by
  rw [pyFloatMant] at h
  split at h
  · split at h
    · exact absurd h (by simp)
    · rw [Option.some.injEq, Prod.mk.injEq] at h
      rw [← h.1]
      positivity
  · split at h
    · exact absurd h (by simp)
    · rw [Option.some.injEq, Prod.mk.injEq] at h
      rw [← h.1]
      positivity

theorem pySign_false (cs : List Char) (hdash : '-' ∉ cs) : (pySign cs).1 = false := by
  match cs with
  | [] => rfl
  | c :: t =>
    rw [pySign]
    have hc : c ≠ '-' := fun hc => hdash (hc ▸ List.mem_cons_self c t)
    rw [if_neg hc]
    split <;> rfl

theorem pyFloat_nonneg (cs : List Char) (x : ℚ) (hdash : '-' ∉ cs)
    (h : pyFloat cs = some x) : 0 ≤ x := by
  rw [pyFloat] at h
  split at h
  · exact absurd h (by simp)
  · rename_i m rest heq
    split at h
    · exact absurd h (by simp)
    · rename_i e heq2
      rw [pySign_false cs hdash, if_neg (by simp)] at h
      rw [Option.some.injEq] at h
      rw [← h]
      have hm : 0 ≤ m := pyFloatMant_nonneg _ _ _ heq
      have hp : (0 : ℚ) ≤ 10 ^ e := zpow_nonneg (by norm_num) e
      exact mul_nonneg hm hp

theorem parseComposite_sec_nonneg (cs : List Char) (h m : ℕ) (sec : ℚ)
    (hp : parseComposite cs = some (h, m, sec)) : 0 ≤ sec := by
  rw [parseComposite] at hp
  split at hp
  · rw [Option.some.injEq, Prod.mk.injEq, Prod.mk.injEq] at hp
    rw [← hp.2.2]
    exact secVal_nonneg _
  · exact absurd hp (by simp)

/-! ## C5: `parse_duration` behaviour -/

/-- C5.  `parse_duration` returns the fallback on the empty string; on a
string whose stripped, lowered form matches the composite `[Nh][Nm][Ns]`
regex it returns `h*3600 + m*60 + s` (in particular 5400 for `"1h30m"`
and 90 for `"90s"`); a bare decimal is read as minutes (`"25"` gives
1500 seconds); anything else returns the fallback without raising
(`"not-a-duration"` with fallback 42 gives 42). -/
theorem parse_duration_spec :
    (∀ fb : ℚ, parse_duration "" fb = fb)
    ∧ (∀ (s : String) (fb : ℚ) (h m : ℕ) (sec : ℚ), s ≠ "" →
        parseComposite (pyLower (pyStrip s.data)) = some (h, m, sec) →
        parse_duration s fb = (h : ℚ) * 3600 + (m : ℚ) * 60 + sec)
    ∧ parse_duration "1h30m" 0 = 5400
    ∧ parse_duration "90s" 0 = 90
    ∧ parse_duration "25" 0 = 1500
    ∧ parse_duration "not-a-duration" 42 = 42 := by
  refine ⟨fun fb => by simp [parse_duration], ?_, ?_, ?_, ?_, ?_⟩
  · intro s fb h m sec hs hp
    simp [parse_duration, if_neg hs, hp]
  · have hp : parseComposite (pyLower (pyStrip ("1h30m".data))) = some (1, 30, 0) := rfl
    simp [parse_duration, hp]
    norm_num
  · have hp : parseComposite (pyLower (pyStrip ("90s".data))) = some (0, 0, ((90 : ℕ) : ℚ)) := rfl
    simp [parse_duration, hp]
  · have hc : parseComposite (pyLower (pyStrip ("25".data))) = none := rfl
    have hf : pyFloat (pyLower (pyStrip ("25".data)))
        = some (((25 : ℕ) : ℚ) * 10 ^ (0 : ℤ)) := rfl
    simp [parse_duration, hc, hf]
    norm_num
  · have hc : parseComposite (pyLower (pyStrip ("not-a-duration".data))) = none := rfl
    have hf : pyFloat (pyLower (pyStrip ("not-a-duration".data))) = none := rfl
    simp [parse_duration, hc, hf]

/-- Witness for C5 on the composite input `"2h"`: two hours parse to
`2*3600 + 0*60 + 0` seconds. -/
theorem parse_duration_spec_witness :
    parse_duration "2h" 5 = ((2 : ℕ) : ℚ) * 3600 + ((0 : ℕ) : ℚ) * 60 + 0 :=
  parse_duration_spec.2.1 "2h" 5 2 0 0 (by decide) (by rfl)

/-! ## C6: parsed durations and negativity -/

/-- C6 counterexample.  The bare-number branch passes the sign through:
`parse_duration "-5" 0` is `-300`, a negative duration, although the
fallback 0 is non-negative. -/
theorem parse_duration_negative :
    parse_duration "-5" 0 = -300 ∧ parse_duration "-5" 0 < 0 := by
  have hc : parseComposite (pyLower (pyStrip ("-5".data))) = none := rfl
  have hf : pyFloat (pyLower (pyStrip ("-5".data)))
      = some (-(((5 : ℕ) : ℚ) * 10 ^ (0 : ℤ))) := rfl
  have h1 : parse_duration "-5" 0 = -300 := by
    simp [parse_duration, hc, hf]
    norm_num
  exact ⟨h1, by rw [h1]; norm_num⟩

/-- C6 (amended).  For every input string that contains no minus sign and
every non-negative fallback, `parse_duration` returns a non-negative
value.  (A bare negative number such as `"-5"` yields a negative result;
see the counterexample.) -/
theorem parse_duration_nonneg_amended :
    ∀ (s : String) (fb : ℚ), 0 ≤ fb → '-' ∉ s.data → 0 ≤ parse_duration s fb := by
  intro s fb hfb hdash
  by_cases hs : s = ""
  · simpa [parse_duration, hs] using hfb
  · rw [show parse_duration s fb = match parseComposite (pyLower (pyStrip s.data)) with
        | some (hours, mins, secs) => (hours : ℚ) * 3600 + (mins : ℚ) * 60 + secs
        | none =>
          match pyFloat (pyLower (pyStrip s.data)) with
          | some x => x * 60
          | none => fb from by simp [parse_duration, if_neg hs]]
    have hdash2 : '-' ∉ pyLower (pyStrip s.data) := fun hmem =>
      hdash (mem_pyStrip _ _ (mem_pyLower_dash _ hmem))
    split
    · rename_i hours mins secs hp
      have hsec := parseComposite_sec_nonneg _ _ _ _ hp
      have h1 : (0 : ℚ) ≤ (hours : ℚ) * 3600 := by positivity
      have h2 : (0 : ℚ) ≤ (mins : ℚ) * 60 := by positivity
      exact add_nonneg (add_nonneg h1 h2) hsec
    · split
      · rename_i hnone x hx
        have := pyFloat_nonneg _ _ hdash2 hx
        positivity
      · exact hfb

/-- Witness for C6 (amended) at the bare number `"25"` with fallback 0. -/
theorem parse_duration_nonneg_amended_witness : 0 ≤ parse_duration "25" 0 :=
  parse_duration_nonneg_amended "25" 0 (le_refl 0) (by decide)

/-! ## Cast and floor helpers for the duration formatter -/

theorem floor_natCast_div (a b : ℕ) (hb : 0 < b) :
    Int.floor ((a : ℚ) / (b : ℚ)) = ((a / b : ℕ) : ℤ) := by
  have hbq : (0 : ℚ) < (b : ℚ) := by exact_mod_cast hb
  rw [Int.floor_eq_iff]
  constructor
  · rw [le_div_iff₀ hbq]
    exact_mod_cast Nat.div_mul_le_self a b
  · rw [div_lt_iff₀ hbq]
    have h : a < (a / b + 1) * b := by
      calc a = b * (a / b) + a % b := (Nat.div_add_mod a b).symm
        _ < b * (a / b) + b := by have := Nat.mod_lt a hb; omega
        _ = (a / b + 1) * b := by ring
    exact_mod_cast h

theorem intDigits_natCast (n : ℕ) : intDigits (n : ℤ) = natDigits n := by
  rw [intDigits, if_neg (by omega)]
  simp

theorem natCast_mod_eq (d b : ℕ) :
    (d : ℚ) - (b : ℚ) * ((d / b : ℕ) : ℚ) = ((d % b : ℕ) : ℚ) := by
  have h := Nat.div_add_mod d b
  have hq : ((b * (d / b) + d % b : ℕ) : ℚ) = (d : ℚ) := by exact_mod_cast h
  push_cast at hq ⊢
  linarith

/-! ## The formatter stages on whole-second inputs -/

theorem fmtH_ge (d : ℕ) (hA : 3600 ≤ d) :
    fmtH (d : ℚ) = ([natDigits (d / 3600) ++ ['h']], ((d % 3600 : ℕ) : ℚ)) := by
  have hAq : (3600 : ℚ) ≤ (d : ℚ) := by exact_mod_cast hA
  have hfl : Int.floor ((d : ℚ) / 3600) = ((d / 3600 : ℕ) : ℤ) := by
    rw [show (3600 : ℚ) = ((3600 : ℕ) : ℚ) by norm_num]
    exact floor_natCast_div d 3600 (by norm_num)
  rw [fmtH, if_pos hAq, hfl, intDigits_natCast]
  rw [Prod.mk.injEq]
  refine ⟨rfl, ?_⟩
  rw [Int.cast_natCast]
  exact natCast_mod_eq d 3600

theorem fmtH_lt (d : ℕ) (hA : ¬ 3600 ≤ d) : fmtH (d : ℚ) = ([], (d : ℚ)) := by
  rw [fmtH, if_neg (by exact_mod_cast hA)]

theorem fmtM_ge (parts : List (List Char)) (r : ℕ) (hB : 60 ≤ r) :
    fmtM (parts, (r : ℚ))
      = (parts ++ [natDigits (r / 60) ++ ['m']], ((r % 60 : ℕ) : ℚ)) := by
  have hBq : (60 : ℚ) ≤ (r : ℚ) := by exact_mod_cast hB
  have hfl : Int.floor ((r : ℚ) / 60) = ((r / 60 : ℕ) : ℤ) := by
    rw [show (60 : ℚ) = ((60 : ℕ) : ℚ) by norm_num]
    exact floor_natCast_div r 60 (by norm_num)
  rw [fmtM]
  rw [show ((parts, (r : ℚ)).2) = (r : ℚ) from rfl, if_pos hBq, hfl, intDigits_natCast]
  rw [Prod.mk.injEq]
  refine ⟨rfl, ?_⟩
  rw [Int.cast_natCast]
  exact natCast_mod_eq r 60

theorem fmtM_lt (parts : List (List Char)) (r : ℕ) (hB : ¬ 60 ≤ r) :
    fmtM (parts, (r : ℚ)) = (parts, (r : ℚ)) := by
  rw [fmtM]
  rw [show ((parts, (r : ℚ)).2) = (r : ℚ) from rfl, if_neg (by exact_mod_cast hB)]

theorem fmtS_nat (parts : List (List Char)) (s : ℕ) :
    fmtS (parts, (s : ℚ))
      = if 0 < s ∨ parts = [] then parts ++ [natDigits s ++ ['s']] else parts := by
  have hint : pyInt ((s : ℕ) : ℚ) = (s : ℤ) := by
    rw [pyInt, if_neg (not_lt.mpr (by positivity)), Int.floor_natCast]
  rw [fmtS]
  rw [show ((parts, (s : ℚ)).2) = (s : ℚ) from rfl,
    show ((parts, (s : ℚ)).1) = parts from rfl, hint]
  by_cases h : 0 < s ∨ parts = []
  · rw [if_pos (by
      rcases h with h | h
      · exact Or.inl (by exact_mod_cast h)
      · exact Or.inr h), if_pos (by rw [Int.cast_natCast]), intDigits_natCast, if_pos h]
  · rw [if_neg ?_, if_neg h]
    intro hc
    rcases hc with hc | hc
    · exact h (Or.inl (by exact_mod_cast hc))
    · exact h (Or.inr hc)

/-! ## The composite regex on formatter output -/

theorem matchGroupLetter_digits (u : Char) (hu : Char.isDigit u = false) (n : ℕ)
    (rest : List Char) :
    matchGroupLetter u (natDigits n ++ u :: rest) = (some (natDigits n), rest) := by
  have hspan := takeWhile_append_cons Char.isDigit (natDigits n) u rest (natDigits_isDigit n) hu
  simp only [matchGroupLetter, hspan.1, hspan.2]
  simp [List.isEmpty_iff, natDigits_ne_nil n]

theorem matchGroupLetter_skip (u c : Char) (hc : Char.isDigit c = false) (hne : c ≠ u)
    (n : ℕ) (rest : List Char) :
    matchGroupLetter u (natDigits n ++ c :: rest) = (none, natDigits n ++ c :: rest) := by
  have hspan := takeWhile_append_cons Char.isDigit (natDigits n) c rest (natDigits_isDigit n) hc
  simp only [matchGroupLetter, hspan.1, hspan.2]
  simp [List.isEmpty_iff, natDigits_ne_nil n, hne]

theorem matchGroupLetter_nil (u : Char) : matchGroupLetter u [] = (none, []) := rfl

theorem matchGroupS_digits (n : ℕ) :
    matchGroupS (natDigits n ++ 's' :: []) = (some (natDigits n, []), []) := by
  have hspan := takeWhile_append_cons Char.isDigit (natDigits n) 's' []
    (natDigits_isDigit n) (by decide)
  simp only [matchGroupS, hspan.1, hspan.2]
  simp [List.isEmpty_iff, natDigits_ne_nil n]

theorem matchGroupS_nil : matchGroupS [] = (none, []) := rfl

theorem digitsToNat_nil : digitsToNat [] = 0 := rfl

/-- A unit part of the formatter output: digits followed by the unit
letter, or nothing when the part is absent. -/
def optPart : Option ℕ → Char → List Char
  | none, _ => []
  | some n, u => natDigits n ++ u :: []

theorem parseComposite_parts (oh om os : Option ℕ)
    (hsome : oh.isSome ∨ om.isSome ∨ os.isSome) :
    parseComposite (optPart oh 'h' ++ (optPart om 'm' ++ optPart os 's'))
      = some (oh.getD 0, om.getD 0, ((os.getD 0 : ℕ) : ℚ)) := by
  have hsec : ∀ s : ℕ, secVal (some (natDigits s, [])) = ((s : ℕ) : ℚ) := fun s => by
    rw [show secVal (some (natDigits s, [])) = (digitsToNat (natDigits s) : ℚ) from rfl,
      digitsToNat_natDigits]
  match oh, om, os with
  | some h, some m, some s =>
    rw [show optPart (some h) 'h' ++ (optPart (some m) 'm' ++ optPart (some s) 's')
        = natDigits h ++ 'h' :: (natDigits m ++ 'm' :: (natDigits s ++ 's' :: [])) by
      simp [optPart]]
    rw [parseComposite, matchGroupLetter_digits 'h' (by decide) h _,
      matchGroupLetter_digits 'm' (by decide) m _, matchGroupS_digits s]
    simp [digitsToNat_natDigits, hsec, digitsToNat_nil]
  | some h, some m, none =>
    rw [show optPart (some h) 'h' ++ (optPart (some m) 'm' ++ optPart none 's')
        = natDigits h ++ 'h' :: (natDigits m ++ 'm' :: []) by simp [optPart]]
    rw [parseComposite, matchGroupLetter_digits 'h' (by decide) h _,
      matchGroupLetter_digits 'm' (by decide) m _, matchGroupS_nil]
    simp [digitsToNat_natDigits, secVal, digitsToNat_nil]
  | some h, none, some s =>
    rw [show optPart (some h) 'h' ++ (optPart none 'm' ++ optPart (some s) 's')
        = natDigits h ++ 'h' :: (natDigits s ++ 's' :: []) by simp [optPart]]
    rw [parseComposite, matchGroupLetter_digits 'h' (by decide) h _,
      matchGroupLetter_skip 'm' 's' (by decide) (by decide) s [], matchGroupS_digits s]
    simp [digitsToNat_natDigits, hsec, digitsToNat_nil]
  | some h, none, none =>
    rw [show optPart (some h) 'h' ++ (optPart none 'm' ++ optPart none 's')
        = natDigits h ++ 'h' :: [] by simp [optPart]]
    rw [parseComposite, matchGroupLetter_digits 'h' (by decide) h _,
      matchGroupLetter_nil 'm', matchGroupS_nil]
    simp [digitsToNat_natDigits, secVal, digitsToNat_nil]
  | none, some m, some s =>
    rw [show optPart none 'h' ++ (optPart (some m) 'm' ++ optPart (some s) 's')
        = natDigits m ++ 'm' :: (natDigits s ++ 's' :: []) by simp [optPart]]
    rw [parseComposite, matchGroupLetter_skip 'h' 'm' (by decide) (by decide) m _,
      matchGroupLetter_digits 'm' (by decide) m _, matchGroupS_digits s]
    simp [digitsToNat_natDigits, hsec, digitsToNat_nil]
  | none, some m, none =>
    rw [show optPart none 'h' ++ (optPart (some m) 'm' ++ optPart none 's')
        = natDigits m ++ 'm' :: [] by simp [optPart]]
    rw [parseComposite, matchGroupLetter_skip 'h' 'm' (by decide) (by decide) m [],
      matchGroupLetter_digits 'm' (by decide) m _, matchGroupS_nil]
    simp [digitsToNat_natDigits, secVal, digitsToNat_nil]
  | none, none, some s =>
    rw [show optPart none 'h' ++ (optPart none 'm' ++ optPart (some s) 's')
        = natDigits s ++ 's' :: [] by simp [optPart]]
    rw [parseComposite, matchGroupLetter_skip 'h' 's' (by decide) (by decide) s [],
      matchGroupLetter_skip 'm' 's' (by decide) (by decide) s [], matchGroupS_digits s]
    simp [digitsToNat_natDigits, hsec, digitsToNat_nil]
  | none, none, none => simp at hsome

theorem optPart_mem (o : Option ℕ) (u c : Char) (h : c ∈ optPart o u) :
    (∃ d, d < 10 ∧ c = digitChar d) ∨ c = u := by
  match o with
  | none => simp [optPart] at h
  | some n =>
    rw [optPart] at h
    rcases List.mem_append.mp h with h | h
    · exact Or.inl (natDigits_mem n c h)
    · simp at h
      exact Or.inr h

theorem optPart_ne_nil (n : ℕ) (u : Char) : optPart (some n) u ≠ [] := by
  simp [optPart]

/-- Parsing a string assembled from hour/minute/second parts recovers the
encoded value in seconds. -/
theorem parse_duration_parts (oh om os : Option ℕ)
    (hsome : oh.isSome ∨ om.isSome ∨ os.isSome) :
    parse_duration (String.mk (optPart oh 'h' ++ (optPart om 'm' ++ optPart os 's'))) 0
      = ((oh.getD 0 : ℕ) : ℚ) * 3600 + ((om.getD 0 : ℕ) : ℚ) * 60
        + ((os.getD 0 : ℕ) : ℚ) := by
  set chars := optPart oh 'h' ++ (optPart om 'm' ++ optPart os 's') with hchars
  have hmem : ∀ c ∈ chars, (∃ d, d < 10 ∧ c = digitChar d) ∨ c = 'h' ∨ c = 'm' ∨ c = 's' := by
    intro c hc
    rw [hchars] at hc
    rcases List.mem_append.mp hc with h | h
    · rcases optPart_mem oh 'h' c h with h' | h'
      · exact Or.inl h'
      · exact Or.inr (Or.inl h')
    · rcases List.mem_append.mp h with h | h
      · rcases optPart_mem om 'm' c h with h' | h'
        · exact Or.inl h'
        · exact Or.inr (Or.inr (Or.inl h'))
      · rcases optPart_mem os 's' c h with h' | h'
        · exact Or.inl h'
        · exact Or.inr (Or.inr (Or.inr h'))
  have hws : ∀ c ∈ chars, c.isWhitespace = false := by
    intro c hc
    rcases hmem c hc with ⟨e, he, rfl⟩ | h | h | h
    · exact (digitChar_lt e he).2.1
    · subst h; decide
    · subst h; decide
    · subst h; decide
  have hlw : ∀ c ∈ chars, Char.toLower c = c := by
    intro c hc
    rcases hmem c hc with ⟨e, he, rfl⟩ | h | h | h
    · exact (digitChar_lt e he).2.2.1
    · subst h; decide
    · subst h; decide
    · subst h; decide
  have hne : chars ≠ [] := by
    rw [hchars]
    rcases hsome with h | h | h
    · match oh, h with
      | some n, _ => exact List.append_ne_nil_of_left_ne_nil (optPart_ne_nil n 'h') _
    · match om, h with
      | some n, _ =>
        exact List.append_ne_nil_of_right_ne_nil _
          (List.append_ne_nil_of_left_ne_nil (optPart_ne_nil n 'm') _)
    · match os, h with
      | some n, _ =>
        exact List.append_ne_nil_of_right_ne_nil _
          (List.append_ne_nil_of_right_ne_nil _ (optPart_ne_nil n 's'))
  have hstr : String.mk chars ≠ "" := fun h => hne (congrArg String.data h)
  have hps : pyStrip chars = chars := pyStrip_eq_self chars hws
  have hpl : pyLower chars = chars := pyLower_eq_self chars hlw
  have hpc := parseComposite_parts oh om os hsome
  rw [← hchars] at hpc
  simp [parse_duration, hstr, show (String.mk chars).data = chars from rfl, hps, hpl, hpc]

/-! ## C4: the duration codec round-trip -/

/-- C4.  For every non-negative whole-second duration `d` — hence in
particular for 0, 45, 90, 1500, 5400 and 3661 —
`parse_duration (format_duration d) 0 = d`. -/
theorem parse_format_roundtrip (d : ℕ) :
    parse_duration (format_duration (d : ℚ)) 0 = (d : ℚ) := by
  by_cases hA : 3600 ≤ d
  · by_cases hB : 60 ≤ d % 3600
    · have h1 := fmtH_ge d hA
      have h2 := fmtM_ge [natDigits (d / 3600) ++ ['h']] (d % 3600) hB
      have h3 := fmtS_nat
        ([natDigits (d / 3600) ++ ['h']] ++ [natDigits (d % 3600 / 60) ++ ['m']])
        (d % 3600 % 60)
      rw [format_duration, h1, h2, h3]
      by_cases hC : 0 < d % 3600 % 60
      · rw [if_pos (Or.inl hC)]
        rw [show ([natDigits (d / 3600) ++ ['h']] ++ [natDigits (d % 3600 / 60) ++ ['m']]
              ++ [natDigits (d % 3600 % 60) ++ ['s']]).flatten
            = optPart (some (d / 3600)) 'h' ++ (optPart (some (d % 3600 / 60)) 'm'
              ++ optPart (some (d % 3600 % 60)) 's') by simp [optPart]]
        rw [parse_duration_parts _ _ _ (by simp)]
        simp only [Option.getD_some]
        exact_mod_cast (by omega : d / 3600 * 3600 + d % 3600 / 60 * 60 + d % 3600 % 60 = d)
      · rw [if_neg (not_or.mpr ⟨hC, by simp⟩)]
        rw [show ([natDigits (d / 3600) ++ ['h']] ++ [natDigits (d % 3600 / 60) ++ ['m']]).flatten
            = optPart (some (d / 3600)) 'h' ++ (optPart (some (d % 3600 / 60)) 'm'
              ++ optPart none 's') by simp [optPart]]
        rw [parse_duration_parts _ _ _ (by simp)]
        simp only [Option.getD_some, Option.getD_none, Nat.cast_zero, add_zero]
        have hC0 : d % 3600 % 60 = 0 := by omega
        exact_mod_cast (by omega : d / 3600 * 3600 + d % 3600 / 60 * 60 = d)
    · have h1 := fmtH_ge d hA
      have h2 := fmtM_lt [natDigits (d / 3600) ++ ['h']] (d % 3600) hB
      have h3 := fmtS_nat [natDigits (d / 3600) ++ ['h']] (d % 3600)
      rw [format_duration, h1, h2, h3]
      by_cases hC : 0 < d % 3600
      · rw [if_pos (Or.inl hC)]
        rw [show ([natDigits (d / 3600) ++ ['h']] ++ [natDigits (d % 3600) ++ ['s']]).flatten
            = optPart (some (d / 3600)) 'h' ++ (optPart none 'm'
              ++ optPart (some (d % 3600)) 's') by simp [optPart]]
        rw [parse_duration_parts _ _ _ (by simp)]
        simp only [Option.getD_some, Option.getD_none, Nat.cast_zero, zero_mul, add_zero,
          zero_add]
        exact_mod_cast (by omega : d / 3600 * 3600 + d % 3600 = d)
      · rw [if_neg (not_or.mpr ⟨hC, by simp⟩)]
        rw [show ([natDigits (d / 3600) ++ ['h']]).flatten
            = optPart (some (d / 3600)) 'h' ++ (optPart none 'm' ++ optPart none 's') by
          simp [optPart]]
        rw [parse_duration_parts _ _ _ (by simp)]
        simp only [Option.getD_some, Option.getD_none, Nat.cast_zero, zero_mul, add_zero]
        exact_mod_cast (by omega : d / 3600 * 3600 = d)
  · by_cases hB : 60 ≤ d
    · have h1 := fmtH_lt d hA
      have h2 := fmtM_ge [] d hB
      have h3 := fmtS_nat ([] ++ [natDigits (d / 60) ++ ['m']]) (d % 60)
      rw [format_duration, h1, h2, h3]
      by_cases hC : 0 < d % 60
      · rw [if_pos (Or.inl hC)]
        rw [show (([] ++ [natDigits (d / 60) ++ ['m']]
              ++ [natDigits (d % 60) ++ ['s']] : List (List Char))).flatten
            = optPart none 'h' ++ (optPart (some (d / 60)) 'm'
              ++ optPart (some (d % 60)) 's') by simp [optPart]]
        rw [parse_duration_parts _ _ _ (by simp)]
        simp only [Option.getD_some, Option.getD_none, Nat.cast_zero, zero_mul, zero_add]
        exact_mod_cast (by omega : d / 60 * 60 + d % 60 = d)
      · rw [if_neg (not_or.mpr ⟨hC, by simp⟩)]
        rw [show ([] ++ [natDigits (d / 60) ++ ['m']] : List (List Char)).flatten
            = optPart none 'h' ++ (optPart (some (d / 60)) 'm' ++ optPart none 's') by
          simp [optPart]]
        rw [parse_duration_parts _ _ _ (by simp)]
        simp only [Option.getD_some, Option.getD_none, Nat.cast_zero, zero_mul, zero_add,
          add_zero]
        exact_mod_cast (by omega : d / 60 * 60 = d)
    · have h1 := fmtH_lt d hA
      have h2 := fmtM_lt [] d hB
      have h3 := fmtS_nat [] d
      rw [format_duration, h1, h2, h3, if_pos (Or.inr rfl)]
      rw [show ([] ++ [natDigits d ++ ['s']] : List (List Char)).flatten
          = optPart none 'h' ++ (optPart none 'm' ++ optPart (some d) 's') by simp [optPart]]
      rw [parse_duration_parts _ _ _ (by simp)]
      simp

/-! ## Lemmas about the status-line renderer -/

theorem floorDiv_facts (x b : ℚ) (hx : 0 ≤ x) (hb : 0 < b) :
    0 ≤ x - b * ((Int.floor (x / b)).toNat : ℚ)
    ∧ x - b * ((Int.floor (x / b)).toNat : ℚ) < b
    ∧ (0 < (Int.floor (x / b)).toNat ↔ b ≤ x) := by
  have h0 : (0 : ℤ) ≤ Int.floor (x / b) := Int.floor_nonneg.mpr (div_nonneg hx hb.le)
  have key : (((Int.floor (x / b)).toNat : ℕ) : ℚ) = ((Int.floor (x / b) : ℤ) : ℚ) := by
    exact_mod_cast Int.toNat_of_nonneg h0
  rw [key]
  refine ⟨?_, ?_, ?_⟩
  · have h1 : ((Int.floor (x / b) : ℤ) : ℚ) ≤ x / b := Int.floor_le (x / b)
    have h2 : b * ((Int.floor (x / b) : ℤ) : ℚ) ≤ x := by
      rw [mul_comm, ← le_div_iff₀ hb]
      exact h1
    linarith
  · have h1 : x / b < ((Int.floor (x / b) : ℤ) : ℚ) + 1 := Int.lt_floor_add_one (x / b)
    have h2 : x < b * (((Int.floor (x / b) : ℤ) : ℚ) + 1) := by
      rw [mul_comm, ← div_lt_iff₀ hb]
      exact h1
    rw [mul_add, mul_one] at h2
    linarith
  · constructor
    · intro hk
      have h1 : (1 : ℤ) ≤ Int.floor (x / b) := by omega
      have h2 : (1 : ℚ) ≤ x / b := by exact_mod_cast Int.le_floor.mp h1
      rw [le_div_iff₀ hb, one_mul] at h2
      exact h2
    · intro hbx
      have h1 : (1 : ℚ) ≤ x / b := (one_le_div hb).mpr hbx
      have h2 : (1 : ℤ) ≤ Int.floor (x / b) := Int.le_floor.mpr (by exact_mod_cast h1)
      omega

theorem roundHE_nonneg (x : ℚ) (hx : 0 ≤ x) : 0 ≤ roundHE x := by
  have h0 : (0 : ℤ) ≤ Int.floor x := Int.floor_nonneg.mpr hx
  rw [roundHE]
  split
  · exact h0
  · split
    · omega
    · split <;> omega

theorem pad2_mem (n : ℕ) : ∀ c ∈ pad2 n, ∃ d, d < 10 ∧ c = digitChar d := by
  intro c hc
  rw [pad2] at hc
  split at hc
  · rcases List.mem_cons.mp hc with h | h
    · exact ⟨0, by omega, by rw [h]; decide⟩
    · exact natDigits_mem n c h
  · exact natDigits_mem n c hc

theorem fmt1f_mem (x : ℚ) (hx : 0 ≤ x) :
    ∀ c ∈ fmt1f x, (∃ d, d < 10 ∧ c = digitChar d) ∨ c = '.' := by
  intro c hc
  rw [fmt1f, if_neg (not_lt.mpr (roundHE_nonneg (10 * x) (by positivity)))] at hc
  rcases List.mem_append.mp hc with h | h
  · exact Or.inl (natDigits_mem _ c h)
  · rcases List.mem_cons.mp h with h | h
    · exact Or.inr h
    · exact Or.inl (natDigits_mem _ c h)

theorem ftClamp_congr (x y : ℚ) (h : ftClamp x = ftClamp y) : format_time x = format_time y := by
  have hH : ftH x = ftH y := by rw [ftH, ftH, h]
  have hS1 : ftS1 x = ftS1 y := by rw [ftS1, ftS1, h, hH]
  have hM : ftM x = ftM y := by rw [ftM, ftM, hS1]
  have hS : ftS x = ftS y := by rw [ftS, ftS, hS1, hM]
  rw [format_time, format_time, hH, hM, hS]

/-! ## C9: the status line renderer (`format_time`) -/

/-- C9.  `format_time` never renders a negative value (it renders the
clamped value, and its output has no minus sign: every character is a
digit, a unit letter, or the decimal point), and it omits exactly the
leading zero units: the `h` segment appears iff the clamped value reaches
an hour, the `m` segment iff it reaches a minute, and the `s` segment
always. -/
theorem format_time_shape (seconds : ℚ) :
    format_time seconds = format_time (max 0 seconds)
    ∧ ((format_time seconds).data.all fun c =>
        c.isDigit || c == 'h' || c == 'm' || c == 's' || c == '.') = true
    ∧ ('h' ∈ (format_time seconds).data ↔ 3600 ≤ max 0 seconds)
    ∧ ('m' ∈ (format_time seconds).data ↔ 60 ≤ max 0 seconds)
    ∧ 's' ∈ (format_time seconds).data := by
  have hCe : ftClamp seconds = max 0 seconds := rfl
  have hx : 0 ≤ ftClamp seconds := le_max_left 0 seconds
  have f1 := floorDiv_facts (ftClamp seconds) 3600 hx (by norm_num)
  rw [show (Int.floor (ftClamp seconds / 3600)).toNat = ftH seconds from rfl,
    show ftClamp seconds - 3600 * ((ftH seconds : ℕ) : ℚ) = ftS1 seconds from rfl] at f1
  obtain ⟨hs1_nonneg, hs1_lt, hH_iff⟩ := f1
  rw [hCe] at hH_iff
  have f2 := floorDiv_facts (ftS1 seconds) 60 hs1_nonneg (by norm_num)
  rw [show (Int.floor (ftS1 seconds / 60)).toNat = ftM seconds from rfl,
    show ftS1 seconds - 60 * ((ftM seconds : ℕ) : ℚ) = ftS seconds from rfl] at f2
  obtain ⟨hs_nonneg, hs_lt, hM_iff⟩ := f2
  have hclamp : format_time seconds = format_time (max 0 seconds) :=
    ftClamp_congr seconds (max 0 seconds) (by
      rw [ftClamp, ftClamp]
      exact (max_eq_right (le_max_left 0 seconds)).symm)
  by_cases hH : 0 < ftH seconds
  · have hfmt : (format_time seconds).data = natDigits (ftH seconds) ++ 'h'
        :: pad2 (ftM seconds) ++ 'm' :: pad2 (pyInt (ftS seconds)).toNat ++ ['s'] := by
      rw [format_time, if_pos hH]
    have h3600 : 3600 ≤ max 0 seconds := hH_iff.mp hH
    have hmemL : ∀ c ∈ (format_time seconds).data,
        (∃ d, d < 10 ∧ c = digitChar d) ∨ c = 'h' ∨ c = 'm' ∨ c = 's' := by
      intro c hc
      rw [hfmt] at hc
      simp only [List.mem_append, List.mem_cons, List.not_mem_nil, or_false] at hc
      rcases hc with ((h | h | h) | h | h) | h
      · exact Or.inl (natDigits_mem _ c h)
      · exact Or.inr (Or.inl h)
      · exact Or.inl (pad2_mem _ c h)
      · exact Or.inr (Or.inr (Or.inl h))
      · exact Or.inl (pad2_mem _ c h)
      · exact Or.inr (Or.inr (Or.inr h))
    refine ⟨hclamp, ?_, ?_, ?_, ?_⟩
    · rw [List.all_eq_true]
      intro c hc
      rcases hmemL c hc with ⟨d, hd, rfl⟩ | h | h | h
      · simp [(digitChar_lt d hd).1]
      · subst h; decide
      · subst h; decide
      · subst h; decide
    · refine iff_of_true ?_ h3600
      rw [hfmt]
      simp
    · refine iff_of_true ?_ (by linarith)
      rw [hfmt]
      simp
    · rw [hfmt]
      simp
  · have hH0 : ftH seconds = 0 := by omega
    have hs1_eq : ftS1 seconds = ftClamp seconds := by
      rw [ftS1, hH0]
      simp
    have hnot3600 : ¬ 3600 ≤ max 0 seconds := fun hc => hH (hH_iff.mpr hc)
    rw [hs1_eq, hCe] at hM_iff
    by_cases hM : 0 < ftM seconds
    · have hfmt : (format_time seconds).data = natDigits (ftM seconds)
          ++ 'm' :: pad2 (pyInt (ftS seconds)).toNat ++ ['s'] := by
        rw [format_time, if_neg hH, if_pos hM]
      have h60 : 60 ≤ max 0 seconds := hM_iff.mp hM
      have hmemL : ∀ c ∈ (format_time seconds).data,
          (∃ d, d < 10 ∧ c = digitChar d) ∨ c = 'm' ∨ c = 's' := by
        intro c hc
        rw [hfmt] at hc
        simp only [List.mem_append, List.mem_cons, List.not_mem_nil, or_false] at hc
        rcases hc with (h | h | h) | h
        · exact Or.inl (natDigits_mem _ c h)
        · exact Or.inr (Or.inl h)
        · exact Or.inl (pad2_mem _ c h)
        · exact Or.inr (Or.inr h)
      refine ⟨hclamp, ?_, ?_, ?_, ?_⟩
      · rw [List.all_eq_true]
        intro c hc
        rcases hmemL c hc with ⟨d, hd, rfl⟩ | h | h
        · simp [(digitChar_lt d hd).1]
        · subst h; decide
        · subst h; decide
      · refine iff_of_false ?_ hnot3600
        intro hmem
        rcases hmemL 'h' hmem with ⟨d, hd, heq⟩ | h | h
        · have := (digitChar_lt d hd).1
          rw [← heq] at this
          exact absurd this (by decide)
        · exact absurd h (by decide)
        · exact absurd h (by decide)
      · refine iff_of_true ?_ h60
        rw [hfmt]
        simp
      · rw [hfmt]
        simp
    · have hnot60 : ¬ 60 ≤ max 0 seconds := fun hc => hM (hM_iff.mpr hc)
      have hfmt : (format_time seconds).data = fmt1f (ftS seconds) ++ ['s'] := by
        rw [format_time, if_neg hH, if_neg hM]
      have hmemL : ∀ c ∈ (format_time seconds).data,
          (∃ d, d < 10 ∧ c = digitChar d) ∨ c = '.' ∨ c = 's' := by
        intro c hc
        rw [hfmt] at hc
        rcases List.mem_append.mp hc with h | h
        · rcases fmt1f_mem (ftS seconds) hs_nonneg c h with h' | h'
          · exact Or.inl h'
          · exact Or.inr (Or.inl h')
        · simp at h
          exact Or.inr (Or.inr h)
      refine ⟨hclamp, ?_, ?_, ?_, ?_⟩
      · rw [List.all_eq_true]
        intro c hc
        rcases hmemL c hc with ⟨d, hd, rfl⟩ | h | h
        · simp [(digitChar_lt d hd).1]
        · subst h; decide
        · subst h; decide
      · refine iff_of_false ?_ hnot3600
        intro hmem
        rcases hmemL 'h' hmem with ⟨d, hd, heq⟩ | h | h
        · have := (digitChar_lt d hd).1
          rw [← heq] at this
          exact absurd this (by decide)
        · exact absurd h (by decide)
        · exact absurd h (by decide)
      · refine iff_of_false ?_ hnot60
        intro hmem
        rcases hmemL 'm' hmem with ⟨d, hd, heq⟩ | h | h
        · have := (digitChar_lt d hd).1
          rw [← heq] at this
          exact absurd this (by decide)
        · exact absurd h (by decide)
        · exact absurd h (by decide)
      · rw [hfmt]
        simp

end Pomidor
